import Mathlib

/-!
Shallow embedding of `app/services/solvers/recaptcha.py` (OpenSea automatic
bulk upload tool, reCAPTCHA solver module) and proofs about its behaviour.

The Python module drives a browser to solve an image-grid reCAPTCHA.  Pure
computations (grid division, coordinate scaling, block checking) are embedded
as Lean functions over `ℕ`, `ℤ`, `ℚ`, lists and strings.  Interactions with
the browser, the network and the detection model are embedded by passing
their outcomes as explicit parameters (oracle values), and stateful control
flow (the retry loop of `Solver.solve`) is embedded as a recursion over the
list of per-iteration outcomes.  Fallible Python code (exceptions,
`KeyError`, `IndexError`) is embedded with `Option` / `Except`.
-/

namespace Recaptcha

/-- Integer version of Python `math.ceil(a / b)` for natural `a` and positive
natural `b`, used to embed the `ceil(width / blocks)` steps in
`OCR.divide_blocks`. -/
def pyCeilDiv (a b : ℕ) : ℕ := (a + b - 1) / b

/-- Embedding of Python `range(0, stop, step)` for a positive `step`:
the list `[0, step, 2*step, ...)` of all multiples of `step` below `stop`. -/
def pyRange (stop step : ℕ) : List ℕ := List.range' 0 (pyCeilDiv stop step) step

/-- Embedding of Python `range(a, b)` over the integers. -/
def intRange (a b : ℤ) : List ℤ :=
  (List.range (b - a).toNat).map (fun (i : ℕ) => a + (i : ℤ))

/-- Embedding of Python `str.split('-')` on the character list of a string:
splits at every dash, keeping empty components. -/
def splitDash : List Char → List (List Char)
  | [] => [[]]
  | c :: rest =>
    let r := splitDash rest
    if c = '-' then [] :: r
    else
      match r with
      | [] => [[c]]
      | g :: gs => (c :: g) :: gs

/-- Embedding of the grid-size read in `Solver.select_blocks`:
`int(table_class.split('-')[3][0])`.  Returns `none` when the class attribute
has fewer than four dash components, the fourth one is empty, or its first
character is not a digit (the Python code would raise there). -/
def table_blocks (tableClass : String) : Option ℕ :=
  match (splitDash tableClass.data).get? 3 with
  | none => none
  | some s =>
    match s with
    | [] => none
    | c :: _ => if c.isDigit then some (c.toNat - '0'.toNat) else none

/-- Embedding of `OCR.image_from_url`.  `download` is the outcome of the
download-and-decode step `imdecode(asarray(bytearray(get(url).raw.read())))`,
which is not inside any `try` block: its failure propagates.  `enhance` is the
outcome of `self.upsampler.enhance(image)[0]`, which is guarded by
`try/except Exception`: on failure the unenhanced decoded image is returned. -/
def image_from_url {Image : Type} (download : Except String Image)
    (enhance : Image → Except String Image) : Except String Image :=
  match download with
  | Except.error e => Except.error e
  | Except.ok image =>
    match enhance image with
    | Except.ok enhanced => Except.ok enhanced
    | Except.error _ => Except.ok image

/-- A tile produced by `OCR.divide_blocks`: the pair of its offset
`(row, column)` in the image and of its shape (number of pixel rows and
columns actually covered, after NumPy slice clipping). -/
abbrev Tile := (ℕ × ℕ) × (ℕ × ℕ)

/-- Embedding of `OCR.divide_blocks` on an image of shape
`(width, height, _)`.  Mirrors the source exactly, including the swapped
steps: `step_row, step_column = ceil(width / blocks), ceil(height / blocks)`,
rows iterate over `range(0, width, step_column)` and columns over
`range(0, height, step_row)`, and each tile is the clipped slice
`image[row:row+step_row, column:column+step_column]`. -/
def divide_blocks (width height blocks : ℕ) : List Tile :=
  let step_row := pyCeilDiv width blocks
  let step_column := pyCeilDiv height blocks
  (pyRange width step_column).flatMap (fun row =>
    (pyRange height step_row).map (fun column =>
      ((row, column),
       (min (row + step_row) width - row,
        min (column + step_column) height - column))))

/-- Embedding of `OCR.check_blocks`: one boolean per per-tile result list,
true exactly when the class name occurs in that list. -/
def check_blocks (result_list : List (List String)) (_class : String) : List Bool :=
  result_list.map (fun result => decide (_class ∈ result))

/-- One detection record of the Yolov5 model, as read from the pandas frame
in `OCR.find_object`: a class name and a bounding box.  Float coordinates are
embedded as rationals. -/
structure Detection where
  name : String
  xmin : ℚ
  ymin : ℚ
  xmax : ℚ
  ymax : ℚ

/-- Embedding of the `blocks == 3` branch of `OCR.find_object`: when a class
name is set, each tile image is classified separately and its detection names
collected; with an empty class name the function returns `[]`.
(`self.specific_classes` is initialised to `[]` and never extended, so the
`eval`-based branch of the source is dead code and is not embedded.) -/
def find_object_tiles (_class : String) (detect : Tile → List String)
    (image_list : List Tile) : List (List String) :=
  if 0 < _class.length then image_list.map detect else []

/-- Embedding of the `blocks == 4` branch of `OCR.find_object`: detections of
the whole challenge image; with an empty class name the function returns `[]`. -/
def find_object_dets (_class : String) (dets : List Detection) : List Detection :=
  if 0 < _class.length then dets else []

/-- Embedding of `ceil(coordinate / image.shape[0] * chunk_number)` in
`OCR.object_coordinates`:  `H` is `image.shape[0]`. -/
def scaleCoord (H : ℚ) (chunk_number : ℕ) (c : ℚ) : ℤ :=
  ⌈c / H * (chunk_number : ℚ)⌉

/-- Embedding of the clamping `v if v != 0 else 1` applied to each component
of a scaled coordinate pair before the dictionary lookup. -/
def clampZero (v : ℤ) : ℤ := if v ≠ 0 then v else 1

/-- The literal 16-entry dictionary of `OCR.object_coordinates`, keyed by the
(clamped) `(y, x)` pair; `none` embeds the `KeyError` raised on any other
key. -/
def indexTable (y x : ℤ) : Option ℤ :=
  if y = 1 ∧ x = 1 then some 1
  else if y = 1 ∧ x = 2 then some 2
  else if y = 1 ∧ x = 3 then some 3
  else if y = 1 ∧ x = 4 then some 4
  else if y = 2 ∧ x = 1 then some 5
  else if y = 2 ∧ x = 2 then some 6
  else if y = 2 ∧ x = 3 then some 7
  else if y = 2 ∧ x = 4 then some 8
  else if y = 3 ∧ x = 1 then some 9
  else if y = 3 ∧ x = 2 then some 10
  else if y = 3 ∧ x = 3 then some 11
  else if y = 3 ∧ x = 4 then some 12
  else if y = 4 ∧ x = 1 then some 13
  else if y = 4 ∧ x = 2 then some 14
  else if y = 4 ∧ x = 3 then some 15
  else if y = 4 ∧ x = 4 then some 16
  else none

/-- Apply a fallible function to every list element; `none` as soon as one
application fails (embedding a comprehension that may raise). -/
def mapOpt {α β : Type} (f : α → Option β) : List α → Option (List β)
  | [] => some []
  | a :: rest =>
    match f a with
    | none => none
    | some b => (mapOpt f rest).map (fun l => b :: l)

/-- The integer grid points spanned by one scaled box in
`OCR.object_coordinates`: the product
`product(range(coordinate[0], coordinate[2] + 1), range(coordinate[1], coordinate[3] + 1))`
of the ceil-scaled x and y ranges of the box `c = (xmin+25, ymin+25, xmax-25, ymax-25)`. -/
def box_points (H : ℚ) (chunk_number : ℕ) (c : ℚ × ℚ × ℚ × ℚ) : List (ℤ × ℤ) :=
  (intRange (scaleCoord H chunk_number c.1)
      (scaleCoord H chunk_number c.2.2.1 + 1)).flatMap (fun x =>
    (intRange (scaleCoord H chunk_number c.2.1)
        (scaleCoord H chunk_number c.2.2.2 + 1)).map (fun y => (x, y)))

/-- The `_result` list of `OCR.object_coordinates`: all grid points of the
inset boxes `(xmin+25, ymin+25, xmax-25, ymax-25)` of the detections whose
name is the target class. -/
def challenge_points (H : ℚ) (_class : String) (dets : List Detection)
    (chunk_number : ℕ) : List (ℤ × ℤ) :=
  (((find_object_dets _class dets).filter (fun r => r.name == _class)).map
    (fun r => (r.xmin + 25, r.ymin + 25, r.xmax - 25, r.ymax - 25))).flatMap
      (box_points H chunk_number)

/-- Embedding of `OCR.object_coordinates`.  `H` is `image.shape[0]` and
`dets` the detections of `find_object(image, 4)`.  Every deduplicated grid
point (Python `set(_result)`) is looked up in `indexTable` after
zero-clamping; a failed lookup (Python `KeyError`) yields `none`, otherwise
one boolean per cell of the `chunk_number ** 2` grid is returned. -/
def object_coordinates (H : ℚ) (_class : String) (dets : List Detection)
    (chunk_number : ℕ) : Option (List Bool) :=
  match mapOpt (fun p => indexTable (clampZero p.2) (clampZero p.1))
      (challenge_points H _class dets chunk_number).dedup with
  | none => none
  | some vals =>
      some ((List.range (chunk_number ^ 2)).map
        (fun (number : ℕ) => decide (((number : ℤ) + 1) ∈ vals)))

/-- Events produced by `Actions.human_click`: Bezier-curve pointer moves,
the wait before the click, and the click on the target element. -/
inductive MouseEv where
  | move (dx dy : ℤ)
  | wait
  | click
  deriving DecidableEq

/-- Embedding of `Actions.human_click`.  `bezier` is the outcome of the
Bezier-curve movement simulation (the whole `try` block): on success it
yields the performed pointer offsets, and any exception
(e.g. `MoveTargetOutOfBoundsException`) is suppressed by the bare
`except Exception: pass`.  In both cases the function then waits and clicks
the target element. -/
def human_click (bezier : Except String (List (ℤ × ℤ))) : List MouseEv :=
  (match bezier with
   | Except.ok offsets => offsets.map (fun o => MouseEv.move o.1 o.2)
   | Except.error _ => []) ++ [MouseEv.wait, MouseEv.click]

/-- Filesystem/network events produced by `OCR.download_models`. -/
inductive NetEv where
  | request (url : String)
  | write (path : String)
  deriving DecidableEq

/-- The configured relative model URLs (`OCR.__init__`). -/
def model_urls : List String :=
  ["RealESRGAN/RealESRGAN_x4plus.pth", "Yolov5x6/yolov5x6.pt"]

/-- The configured model cache paths (`OCR.__init__`). -/
def model_path : List String :=
  ["realesrgan/RealESRGAN_x4plus.pth", "yolov5/yolov5x6.pt"]

/-- Embedding of `OCR.download_models`: iterate over the zipped url/path
configuration; for every path missing from the filesystem (`onDisk` is the
`exists(abspath(path))` oracle) issue one HTTP request and one file write,
and do nothing for a path that is already cached. -/
def download_models (urls paths : List String) (onDisk : String → Bool) : List NetEv :=
  (urls.zip paths).flatMap (fun m =>
    if onDisk m.2 then [] else [NetEv.request m.1, NetEv.write m.2])

/-- Outcome of the inner `challenge_opened()` probe in the exception handler
of `Solver.solve`: the challenge frame is still open, it is closed, or the
probe itself raises (the frame disappeared). -/
inductive Recheck where
  | stillOpen
  | closed
  | raises
  deriving DecidableEq

/-- Outcome of one iteration of the `while True` loop of `Solver.solve`:
`ok` - `challenge_opened()` returned true and the body ran without raising;
`solved` - `challenge_opened()` returned false (the loop breaks);
`exc r` - an exception escaped the `try` block (from `challenge_opened` or
from the body), with `r` describing what the handler's re-probe would see. -/
inductive Iter where
  | ok
  | solved
  | exc (recheck : Recheck)
  deriving DecidableEq

/-- Embedding of the `while True` loop of `Solver.solve`, with the current
value of the `failed` counter and the list of remaining iteration outcomes.
`none` means the supplied outcomes were exhausted with the loop still
running.  Mirrors the source: on an exception, if `failed < 2` the handler
re-probes the challenge (retrying with `failed + 1` when still open,
breaking with `True` when closed or when the probe raises); once
`failed < 2` fails the function returns `False`. -/
def solveLoop : ℕ → List Iter → Option Bool
  | _, [] => none
  | _, Iter.solved :: _ => some true
  | failed, Iter.ok :: rest => solveLoop failed rest
  | failed, Iter.exc r :: rest =>
    if failed < 2 then
      match r with
      | Recheck.stillOpen => solveLoop (failed + 1) rest
      | Recheck.closed => some true
      | Recheck.raises => some true
    else some false

/-- `Solver.solve` starting with `failed = 0`. -/
def solve (iters : List Iter) : Option Bool := solveLoop 0 iters

/-- The value of the `failed` counter after the loop consumes all outcomes in
the list without exiting, or `none` when the loop would exit within the
list. -/
def stepsThrough : ℕ → List Iter → Option ℕ
  | failed, [] => some failed
  | failed, Iter.ok :: rest => stepsThrough failed rest
  | _, Iter.solved :: _ => none
  | failed, Iter.exc Recheck.stillOpen :: rest =>
    if failed < 2 then stepsThrough (failed + 1) rest else none
  | _, Iter.exc Recheck.closed :: _ => none
  | _, Iter.exc Recheck.raises :: _ => none

/-- All iterations in the list completed normally. -/
def allOk (l : List Iter) : Prop := ∀ x ∈ l, x = Iter.ok

/-- The selection list computed by `Solver.select_blocks` before the click
loop: the grid size is parsed from the challenge table's class attribute;
for a 3x3 grid the per-tile pipeline
`check_blocks(find_object(divide_blocks()), _class)` runs on the tiles of
the (width x height) challenge image, with `detect` the per-tile Yolov5
oracle; otherwise `object_coordinates()` runs with its default
`chunk_number = 4` on the detections `dets` of the whole image of height
`H`.  `none` embeds a raised exception. -/
def select_blocks_result (tableClass _class : String) (width height : ℕ)
    (detect : Tile → List String) (H : ℚ) (dets : List Detection) :
    Option (List Bool) :=
  match table_blocks tableClass with
  | none => none
  | some blocks =>
    if blocks = 3 then
      some (check_blocks
        (find_object_tiles _class detect (divide_blocks width height 3)) _class)
    else object_coordinates H _class dets 4

/-- The indices clicked by the first click loop of `Solver.select_blocks`:
for every `block` in the shuffled range (`perm`), the element is clicked
exactly when `result[block]` is true; an out-of-range access embeds the
Python `IndexError` as `none`. -/
def select_blocks_clicks (result : List Bool) : List ℕ → Option (List ℕ)
  | [] => some []
  | b :: rest =>
    match result.get? b with
    | none => none
    | some true => (select_blocks_clicks result rest).map (fun l => b :: l)
    | some false => select_blocks_clicks result rest

/-- Events of one iteration of the solve loop, for the step-ordering claim. -/
inductive Ev where
  | fetchImage
  | classify
  | mapResults
  | clickTile (n : ℕ)
  | confirmBtn
  | errorPoll
  | reloadBtn
  deriving DecidableEq

/-- `true` on the completion-polling events (`actions.confirm`,
`Solver.check_error`, `actions.reload`). -/
def isPollEv : Ev → Bool
  | Ev.confirmBtn => true
  | Ev.errorPoll => true
  | Ev.reloadBtn => true
  | _ => false

/-- `true` on tile clicks. -/
def isClickEv : Ev → Bool
  | Ev.clickTile _ => true
  | _ => false

/-- Event trace of `Solver.select_blocks`: the challenge image is fetched,
the detection model classifies it, the detections are mapped to the
selection list, and the selected tiles are clicked; for a 3x3 challenge the
dynamic-replacement loop then repeats fetch/classify/click rounds (`dyn`
lists, per round, the tile checked and whether it was re-clicked). -/
def select_blocks_trace (result : List Bool) (perm : List ℕ)
    (dyn : List (ℕ × Bool)) : List Ev :=
  [Ev.fetchImage, Ev.classify, Ev.mapResults]
    ++ (perm.filter (fun b => result.getD b false)).map Ev.clickTile
    ++ dyn.flatMap (fun d =>
      [Ev.fetchImage, Ev.classify] ++ if d.2 then [Ev.clickTile d.1] else [])

/-- Event trace of one non-raising iteration of the solve loop: the
`select_blocks` trace followed by the completion poll - confirm then
error-check (reloading when an error is displayed) when a class is set,
plain reload otherwise. -/
def solve_iteration_trace (result : List Bool) (perm : List ℕ)
    (dyn : List (ℕ × Bool)) (_class : String) (errorShown : Bool) : List Ev :=
  select_blocks_trace result perm dyn
    ++ (if _class ≠ "" then
          Ev.confirmBtn :: Ev.errorPoll :: (if errorShown then [Ev.reloadBtn] else [])
        else [Ev.reloadBtn])

/-! ## Theorems -/

/-- Claim C5: `OCR.image_from_url` returns the Real-ESRGAN-enhanced image
when enhancement succeeds, falls back to the unenhanced decoded image when
enhancement raises any exception, and does not guard the download-and-decode
step, whose failure propagates. -/
theorem image_from_url_fallback :
    ∀ {Image : Type} (download : Except String Image)
      (enhance : Image → Except String Image),
      (∀ img out, download = Except.ok img → enhance img = Except.ok out →
        image_from_url download enhance = Except.ok out) ∧
      (∀ img err, download = Except.ok img → enhance img = Except.error err →
        image_from_url download enhance = Except.ok img) ∧
      (∀ err, download = Except.error err →
        image_from_url download enhance = Except.error err) := by
  intro Image download enhance
  refine ⟨?_, ?_, ?_⟩
  · intro img out hd he
    subst hd
    simp [image_from_url, he]
  · intro img err hd he
    subst hd
    simp [image_from_url, he]
  · intro err hd
    subst hd
    simp [image_from_url]

/-- Witness for C5: with a successfully decoded image and a failing
enhancement, the decoded image is returned unchanged. -/
theorem image_from_url_fallback_witness :
    image_from_url (Except.ok (5 : ℕ)) (fun _ => Except.error "enhance failed") =
      Except.ok 5 :=
  (image_from_url_fallback (Except.ok 5)
    (fun _ => Except.error "enhance failed")).2.1 5 "enhance failed" rfl rfl

/-- Claim C7: `OCR.check_blocks` returns one boolean per input result list,
and the i-th boolean is true exactly when the class name is a member of the
i-th result list. -/
theorem check_blocks_membership :
    ∀ (result_list : List (List String)) (_class : String),
      (check_blocks result_list _class).length = result_list.length ∧
      ∀ i, i < result_list.length →
        ((check_blocks result_list _class).getD i false = true ↔
          _class ∈ result_list.getD i []) := by
  intro rl c
  refine ⟨by simp [check_blocks], ?_⟩
  induction rl with
  | nil =>
    intro i hi
    simp at hi
  | cons x xs ih =>
    intro i hi
    cases i with
    | zero => simp [check_blocks]
    | succ n =>
      have hn : n < xs.length := by simpa using hi
      simpa [check_blocks] using ih n hn

/-- Witness for C7: at index 0 of a concrete two-entry result list, the
boolean agrees with membership of the class name. -/
theorem check_blocks_membership_witness :
    (check_blocks [["car"], ["bus"]] "car").getD 0 false = true ↔
      "car" ∈ [["car"], ["bus"]].getD 0 [] :=
  (check_blocks_membership [["car"], ["bus"]] "car").2 0 (by decide)

/-- Claim C8: `Actions.human_click` suppresses any exception raised during
the Bezier-curve movement, and in both the success and the exception case it
still waits and then clicks the target exactly once, the click coming last. -/
theorem human_click_always_clicks :
    ∀ bezier : Except String (List (ℤ × ℤ)),
      (human_click bezier).count MouseEv.click = 1 ∧
      (∃ pre, human_click bezier = pre ++ [MouseEv.wait, MouseEv.click] ∧
        MouseEv.click ∉ pre ∧ MouseEv.wait ∉ pre) ∧
      (∀ err, bezier = Except.error err →
        human_click bezier = [MouseEv.wait, MouseEv.click]) := by
  intro bezier
  refine ⟨?_, ?_, ?_⟩
  · cases bezier with
    | error e => rfl
    | ok offsets =>
      have h0 : MouseEv.click ∉ offsets.map (fun o => MouseEv.move o.1 o.2) := by
        simp [List.mem_map]
      simp [human_click, List.count_append, List.count_eq_zero.mpr h0,
        List.count_cons]
  · cases bezier with
    | error e =>
      exact ⟨[], rfl, by simp, by simp⟩
    | ok offsets =>
      refine ⟨offsets.map (fun o => MouseEv.move o.1 o.2), ?_, ?_, ?_⟩
      · rfl
      · simp [List.mem_map]
      · simp [List.mem_map]
  · intro err h
    subst h
    rfl

/-- Witness for C8: with a raising Bezier simulation, the produced event
trace is exactly the wait followed by the single click. -/
theorem human_click_always_clicks_witness :
    human_click (Except.error "MoveTargetOutOfBoundsException") =
      [MouseEv.wait, MouseEv.click] :=
  (human_click_always_clicks
    (Except.error "MoveTargetOutOfBoundsException")).2.2 _ rfl

/-- Claim C9: `OCR.download_models` issues a request and a file write for a
configured model exactly when no file exists at its cache path; a cached
weight file triggers no write and its url no request. -/
theorem download_models_cache :
    ∀ (urls paths : List String) (onDisk : String → Bool) (url path : String),
      (NetEv.request url ∈ download_models urls paths onDisk ↔
        ∃ p, (url, p) ∈ urls.zip paths ∧ onDisk p = false) ∧
      (NetEv.write path ∈ download_models urls paths onDisk ↔
        ∃ u, (u, path) ∈ urls.zip paths ∧ onDisk path = false) ∧
      (onDisk path = true →
        NetEv.write path ∉ download_models urls paths onDisk) := by
  intro urls paths onDisk url path
  have hmem : ∀ (e : NetEv) (m : String × String),
      e ∈ (if onDisk m.2 then ([] : List NetEv)
           else [NetEv.request m.1, NetEv.write m.2]) ↔
        onDisk m.2 = false ∧ (e = NetEv.request m.1 ∨ e = NetEv.write m.2) := by
    intro e m
    by_cases h : onDisk m.2 <;> simp [h]
  have hreq : NetEv.request url ∈ download_models urls paths onDisk ↔
      ∃ p, (url, p) ∈ urls.zip paths ∧ onDisk p = false := by
    simp only [download_models, List.mem_flatMap]
    constructor
    · rintro ⟨m, hm, he⟩
      rw [hmem] at he
      rcases he with ⟨hdisk, he | he⟩
      · cases he
        exact ⟨m.2, hm, hdisk⟩
      · cases he
    · rintro ⟨p, hm, hdisk⟩
      exact ⟨(url, p), hm, by rw [hmem]; exact ⟨hdisk, Or.inl rfl⟩⟩
  have hwrite : NetEv.write path ∈ download_models urls paths onDisk ↔
      ∃ u, (u, path) ∈ urls.zip paths ∧ onDisk path = false := by
    simp only [download_models, List.mem_flatMap]
    constructor
    · rintro ⟨m, hm, he⟩
      rw [hmem] at he
      rcases he with ⟨hdisk, he | he⟩
      · cases he
      · cases he
        exact ⟨m.1, hm, hdisk⟩
    · rintro ⟨u, hm, hdisk⟩
      exact ⟨(u, path), hm, by rw [hmem]; exact ⟨hdisk, Or.inr rfl⟩⟩
  refine ⟨hreq, hwrite, ?_⟩
  intro ht hcontra
  rcases hwrite.mp hcontra with ⟨u, _, hfalse⟩
  rw [ht] at hfalse
  cases hfalse

/-- Witness for C9: with both configured weight files already cached, the
Real-ESRGAN cache path is not rewritten. -/
theorem download_models_cache_witness :
    NetEv.write "realesrgan/RealESRGAN_x4plus.pth" ∉
      download_models model_urls model_path (fun _ => true) :=
  (download_models_cache model_urls model_path (fun _ => true) "u"
    "realesrgan/RealESRGAN_x4plus.pth").2.2 rfl

theorem allOk_nil : allOk [] := by
  intro x hx
  cases hx

theorem allOk_cons : ∀ {l : List Iter}, allOk (Iter.ok :: l) ↔ allOk l := by
  intro l
  simp [allOk]

theorem stepsThrough_two_allOk (p : List Iter) :
    stepsThrough 2 p = some 2 ↔ allOk p := by
  induction p with
  | nil => simp [stepsThrough, allOk]
  | cons x xs ih =>
    cases x with
    | ok => simpa [stepsThrough, allOk, List.forall_mem_cons] using ih
    | solved => simp [stepsThrough, allOk, List.forall_mem_cons]
    | exc r => cases r <;> simp [stepsThrough, allOk, List.forall_mem_cons]

theorem stepsThrough_one (p : List Iter) :
    stepsThrough 1 p = some 2 ↔
      ∃ b c, p = b ++ Iter.exc Recheck.stillOpen :: c ∧ allOk b ∧ allOk c := by
  induction p with
  | nil =>
    constructor
    · intro h
      simp [stepsThrough] at h
    · rintro ⟨b, c, hbc, -, -⟩
      cases b <;> simp at hbc
  | cons x xs ih =>
    cases x with
    | ok =>
      rw [show stepsThrough 1 (Iter.ok :: xs) = stepsThrough 1 xs from rfl, ih]
      constructor
      · rintro ⟨b, c, hbc, hb, hc⟩
        exact ⟨Iter.ok :: b, c, by rw [hbc]; rfl, allOk_cons.mpr hb, hc⟩
      · rintro ⟨b, c, hbc, hb, hc⟩
        cases b with
        | nil => simp at hbc
        | cons y b2 =>
          simp only [List.cons_append, List.cons.injEq] at hbc
          obtain ⟨hy, hxs⟩ := hbc
          subst hy
          exact ⟨b2, c, hxs, allOk_cons.mp hb, hc⟩
    | solved =>
      constructor
      · intro h
        simp [stepsThrough] at h
      · rintro ⟨b, c, hbc, hb, hc⟩
        cases b with
        | nil => simp at hbc
        | cons y b2 =>
          simp only [List.cons_append, List.cons.injEq] at hbc
          obtain ⟨hy, -⟩ := hbc
          have h1 : y = Iter.ok := hb y (by simp)
          rw [h1] at hy
          simp at hy
    | exc r =>
      cases r with
      | stillOpen =>
        rw [show stepsThrough 1 (Iter.exc Recheck.stillOpen :: xs) =
            stepsThrough 2 xs from by simp [stepsThrough],
          stepsThrough_two_allOk]
        constructor
        · intro h
          exact ⟨[], xs, rfl, allOk_nil, h⟩
        · rintro ⟨b, c, hbc, hb, hc⟩
          cases b with
          | nil =>
            simp only [List.nil_append, List.cons.injEq] at hbc
            obtain ⟨-, hxs⟩ := hbc
            rw [hxs]
            exact hc
          | cons y b2 =>
            simp only [List.cons_append, List.cons.injEq] at hbc
            obtain ⟨hy, -⟩ := hbc
            have h1 : y = Iter.ok := hb y (by simp)
            rw [h1] at hy
            simp at hy
      | closed =>
        constructor
        · intro h
          simp [stepsThrough] at h
        · rintro ⟨b, c, hbc, hb, hc⟩
          cases b with
          | nil => simp at hbc
          | cons y b2 =>
            simp only [List.cons_append, List.cons.injEq] at hbc
            obtain ⟨hy, -⟩ := hbc
            have h1 : y = Iter.ok := hb y (by simp)
            rw [h1] at hy
            simp at hy
      | raises =>
        constructor
        · intro h
          simp [stepsThrough] at h
        · rintro ⟨b, c, hbc, hb, hc⟩
          cases b with
          | nil => simp at hbc
          | cons y b2 =>
            simp only [List.cons_append, List.cons.injEq] at hbc
            obtain ⟨hy, -⟩ := hbc
            have h1 : y = Iter.ok := hb y (by simp)
            rw [h1] at hy
            simp at hy

theorem stepsThrough_zero (p : List Iter) :
    stepsThrough 0 p = some 2 ↔
      ∃ a q, p = a ++ Iter.exc Recheck.stillOpen :: q ∧ allOk a ∧
        stepsThrough 1 q = some 2 := by
  induction p with
  | nil =>
    constructor
    · intro h
      simp [stepsThrough] at h
    · rintro ⟨a, q, haq, -, -⟩
      cases a <;> simp at haq
  | cons x xs ih =>
    cases x with
    | ok =>
      rw [show stepsThrough 0 (Iter.ok :: xs) = stepsThrough 0 xs from rfl, ih]
      constructor
      · rintro ⟨a, q, haq, ha, hq⟩
        exact ⟨Iter.ok :: a, q, by rw [haq]; rfl, allOk_cons.mpr ha, hq⟩
      · rintro ⟨a, q, haq, ha, hq⟩
        cases a with
        | nil => simp at haq
        | cons y a2 =>
          simp only [List.cons_append, List.cons.injEq] at haq
          obtain ⟨hy, hxs⟩ := haq
          subst hy
          exact ⟨a2, q, hxs, allOk_cons.mp ha, hq⟩
    | solved =>
      constructor
      · intro h
        simp [stepsThrough] at h
      · rintro ⟨a, q, haq, ha, hq⟩
        cases a with
        | nil => simp at haq
        | cons y a2 =>
          simp only [List.cons_append, List.cons.injEq] at haq
          obtain ⟨hy, -⟩ := haq
          have h1 : y = Iter.ok := ha y (by simp)
          rw [h1] at hy
          simp at hy
    | exc r =>
      cases r with
      | stillOpen =>
        rw [show stepsThrough 0 (Iter.exc Recheck.stillOpen :: xs) =
            stepsThrough 1 xs from by simp [stepsThrough]]
        constructor
        · intro h
          exact ⟨[], xs, rfl, allOk_nil, h⟩
        · rintro ⟨a, q, haq, ha, hq⟩
          cases a with
          | nil =>
            simp only [List.nil_append, List.cons.injEq] at haq
            obtain ⟨-, hxs⟩ := haq
            rw [hxs]
            exact hq
          | cons y a2 =>
            simp only [List.cons_append, List.cons.injEq] at haq
            obtain ⟨hy, -⟩ := haq
            have h1 : y = Iter.ok := ha y (by simp)
            rw [h1] at hy
            simp at hy
      | closed =>
        constructor
        · intro h
          simp [stepsThrough] at h
        · rintro ⟨a, q, haq, ha, hq⟩
          cases a with
          | nil => simp at haq
          | cons y a2 =>
            simp only [List.cons_append, List.cons.injEq] at haq
            obtain ⟨hy, -⟩ := haq
            have h1 : y = Iter.ok := ha y (by simp)
            rw [h1] at hy
            simp at hy
      | raises =>
        constructor
        · intro h
          simp [stepsThrough] at h
        · rintro ⟨a, q, haq, ha, hq⟩
          cases a with
          | nil => simp at haq
          | cons y a2 =>
            simp only [List.cons_append, List.cons.injEq] at haq
            obtain ⟨hy, -⟩ := haq
            have h1 : y = Iter.ok := ha y (by simp)
            rw [h1] at hy
            simp at hy

theorem stepsThrough_zero_two (p : List Iter) :
    stepsThrough 0 p = some 2 ↔
      ∃ a b c,
        p = a ++ Iter.exc Recheck.stillOpen :: (b ++ Iter.exc Recheck.stillOpen :: c) ∧
        allOk a ∧ allOk b ∧ allOk c := by
  rw [stepsThrough_zero]
  constructor
  · rintro ⟨a, q, hp, ha, hq⟩
    rcases (stepsThrough_one q).mp hq with ⟨b, c, hq2, hb, hc⟩
    exact ⟨a, b, c, by rw [hp, hq2], ha, hb, hc⟩
  · rintro ⟨a, b, c, hp, ha, hb, hc⟩
    exact ⟨a, b ++ Iter.exc Recheck.stillOpen :: c, hp, ha,
      (stepsThrough_one _).mpr ⟨b, c, rfl, hb, hc⟩⟩

theorem stepsThrough_le_two :
    ∀ (p : List Iter) (f fin : ℕ), f ≤ 2 → stepsThrough f p = some fin → fin ≤ 2 := by
  intro p
  induction p with
  | nil =>
    intro f fin hf h
    injection h with h2
    omega
  | cons x xs ih =>
    intro f fin hf h
    cases x with
    | ok => exact ih f fin hf h
    | solved => simp [stepsThrough] at h
    | exc r =>
      cases r with
      | stillOpen =>
        by_cases h2 : f < 2
        · rw [show stepsThrough f (Iter.exc Recheck.stillOpen :: xs) =
              stepsThrough (f + 1) xs from by simp [stepsThrough, h2]] at h
          exact ih (f + 1) fin (by omega) h
        · simp [stepsThrough, h2] at h
      | closed => simp [stepsThrough] at h
      | raises => simp [stepsThrough] at h

theorem solveLoop_false_iff :
    ∀ (iters : List Iter) (f : ℕ),
      solveLoop f iters = some false ↔
        ∃ p r rest fin, iters = p ++ Iter.exc r :: rest ∧
          stepsThrough f p = some fin ∧ 2 ≤ fin := by
  intro iters
  induction iters with
  | nil =>
    intro f
    constructor
    · intro h
      simp [solveLoop] at h
    · rintro ⟨p, r, rest, fin, hp, -, -⟩
      cases p <;> simp at hp
  | cons x xs ih =>
    intro f
    cases x with
    | solved =>
      constructor
      · intro h
        simp [solveLoop] at h
      · rintro ⟨p, r, rest, fin, hp, hsteps, hfin⟩
        cases p with
        | nil => simp at hp
        | cons y p2 =>
          simp only [List.cons_append, List.cons.injEq] at hp
          obtain ⟨hy, -⟩ := hp
          subst hy
          simp [stepsThrough] at hsteps
    | ok =>
      rw [show solveLoop f (Iter.ok :: xs) = solveLoop f xs from rfl, ih f]
      constructor
      · rintro ⟨p, r, rest, fin, hp, hsteps, hfin⟩
        exact ⟨Iter.ok :: p, r, rest, fin, by rw [hp]; rfl, hsteps, hfin⟩
      · rintro ⟨p, r, rest, fin, hp, hsteps, hfin⟩
        cases p with
        | nil => simp at hp
        | cons y p2 =>
          simp only [List.cons_append, List.cons.injEq] at hp
          obtain ⟨hy, hxs⟩ := hp
          subst hy
          exact ⟨p2, r, rest, fin, hxs, hsteps, hfin⟩
    | exc r0 =>
      by_cases hf : f < 2
      · cases r0 with
        | stillOpen =>
          rw [show solveLoop f (Iter.exc Recheck.stillOpen :: xs) =
              solveLoop (f + 1) xs from by simp [solveLoop, hf], ih (f + 1)]
          constructor
          · rintro ⟨p, r, rest, fin, hp, hsteps, hfin⟩
            refine ⟨Iter.exc Recheck.stillOpen :: p, r, rest, fin,
              by rw [hp]; rfl, ?_, hfin⟩
            rw [show stepsThrough f (Iter.exc Recheck.stillOpen :: p) =
                stepsThrough (f + 1) p from by simp [stepsThrough, hf]]
            exact hsteps
          · rintro ⟨p, r, rest, fin, hp, hsteps, hfin⟩
            cases p with
            | nil =>
              simp only [List.nil_append, List.cons.injEq] at hp
              simp [stepsThrough] at hsteps
              omega
            | cons y p2 =>
              simp only [List.cons_append, List.cons.injEq] at hp
              obtain ⟨hy, hxs⟩ := hp
              subst hy
              rw [show stepsThrough f (Iter.exc Recheck.stillOpen :: p2) =
                  stepsThrough (f + 1) p2 from by simp [stepsThrough, hf]] at hsteps
              exact ⟨p2, r, rest, fin, hxs, hsteps, hfin⟩
        | closed =>
          rw [show solveLoop f (Iter.exc Recheck.closed :: xs) = some true from
            by simp [solveLoop, hf]]
          constructor
          · intro h
            simp at h
          · rintro ⟨p, r, rest, fin, hp, hsteps, hfin⟩
            cases p with
            | nil =>
              simp only [List.nil_append, List.cons.injEq] at hp
              simp [stepsThrough] at hsteps
              omega
            | cons y p2 =>
              simp only [List.cons_append, List.cons.injEq] at hp
              obtain ⟨hy, -⟩ := hp
              subst hy
              simp [stepsThrough] at hsteps
        | raises =>
          rw [show solveLoop f (Iter.exc Recheck.raises :: xs) = some true from
            by simp [solveLoop, hf]]
          constructor
          · intro h
            simp at h
          · rintro ⟨p, r, rest, fin, hp, hsteps, hfin⟩
            cases p with
            | nil =>
              simp only [List.nil_append, List.cons.injEq] at hp
              simp [stepsThrough] at hsteps
              omega
            | cons y p2 =>
              simp only [List.cons_append, List.cons.injEq] at hp
              obtain ⟨hy, -⟩ := hp
              subst hy
              simp [stepsThrough] at hsteps
      · rw [show solveLoop f (Iter.exc r0 :: xs) = some false from
          by simp [solveLoop, hf]]
        constructor
        · intro _
          exact ⟨[], r0, xs, f, rfl, rfl, by omega⟩
        · intro _
          rfl

theorem solveLoop_true_iff :
    ∀ (iters : List Iter) (f : ℕ),
      solveLoop f iters = some true ↔
        ∃ p e rest fin, iters = p ++ e :: rest ∧ stepsThrough f p = some fin ∧
          (e = Iter.solved ∨ (fin < 2 ∧
            (e = Iter.exc Recheck.closed ∨ e = Iter.exc Recheck.raises))) := by
  intro iters
  induction iters with
  | nil =>
    intro f
    constructor
    · intro h
      simp [solveLoop] at h
    · rintro ⟨p, e, rest, fin, hp, -, -⟩
      cases p <;> simp at hp
  | cons x xs ih =>
    intro f
    cases x with
    | solved =>
      constructor
      · intro _
        exact ⟨[], Iter.solved, xs, f, rfl, rfl, Or.inl rfl⟩
      · intro _
        rfl
    | ok =>
      rw [show solveLoop f (Iter.ok :: xs) = solveLoop f xs from rfl, ih f]
      constructor
      · rintro ⟨p, e, rest, fin, hp, hsteps, he⟩
        exact ⟨Iter.ok :: p, e, rest, fin, by rw [hp]; rfl, hsteps, he⟩
      · rintro ⟨p, e, rest, fin, hp, hsteps, he⟩
        cases p with
        | nil =>
          simp only [List.nil_append, List.cons.injEq] at hp
          obtain ⟨he2, -⟩ := hp
          subst he2
          rcases he with h1 | ⟨-, h1 | h1⟩ <;> simp at h1
        | cons y p2 =>
          simp only [List.cons_append, List.cons.injEq] at hp
          obtain ⟨hy, hxs⟩ := hp
          subst hy
          exact ⟨p2, e, rest, fin, hxs, hsteps, he⟩
    | exc r0 =>
      by_cases hf : f < 2
      · cases r0 with
        | stillOpen =>
          rw [show solveLoop f (Iter.exc Recheck.stillOpen :: xs) =
              solveLoop (f + 1) xs from by simp [solveLoop, hf], ih (f + 1)]
          constructor
          · rintro ⟨p, e, rest, fin, hp, hsteps, he⟩
            refine ⟨Iter.exc Recheck.stillOpen :: p, e, rest, fin,
              by rw [hp]; rfl, ?_, he⟩
            rw [show stepsThrough f (Iter.exc Recheck.stillOpen :: p) =
                stepsThrough (f + 1) p from by simp [stepsThrough, hf]]
            exact hsteps
          · rintro ⟨p, e, rest, fin, hp, hsteps, he⟩
            cases p with
            | nil =>
              simp only [List.nil_append, List.cons.injEq] at hp
              obtain ⟨he2, -⟩ := hp
              subst he2
              rcases he with h1 | ⟨-, h1 | h1⟩ <;> simp at h1
            | cons y p2 =>
              simp only [List.cons_append, List.cons.injEq] at hp
              obtain ⟨hy, hxs⟩ := hp
              subst hy
              rw [show stepsThrough f (Iter.exc Recheck.stillOpen :: p2) =
                  stepsThrough (f + 1) p2 from by simp [stepsThrough, hf]] at hsteps
              exact ⟨p2, e, rest, fin, hxs, hsteps, he⟩
        | closed =>
          rw [show solveLoop f (Iter.exc Recheck.closed :: xs) = some true from
            by simp [solveLoop, hf]]
          constructor
          · intro _
            exact ⟨[], Iter.exc Recheck.closed, xs, f, rfl, rfl,
              Or.inr ⟨hf, Or.inl rfl⟩⟩
          · intro _
            rfl
        | raises =>
          rw [show solveLoop f (Iter.exc Recheck.raises :: xs) = some true from
            by simp [solveLoop, hf]]
          constructor
          · intro _
            exact ⟨[], Iter.exc Recheck.raises, xs, f, rfl, rfl,
              Or.inr ⟨hf, Or.inr rfl⟩⟩
          · intro _
            rfl
      · rw [show solveLoop f (Iter.exc r0 :: xs) = some false from
          by simp [solveLoop, hf]]
        constructor
        · intro h
          simp at h
        · rintro ⟨p, e, rest, fin, hp, hsteps, he⟩
          cases p with
          | nil =>
            simp only [List.nil_append, List.cons.injEq] at hp
            obtain ⟨he2, -⟩ := hp
            subst he2
            simp [stepsThrough] at hsteps
            rcases he with h1 | ⟨h2, -⟩
            · simp at h1
            · omega
          | cons y p2 =>
            simp only [List.cons_append, List.cons.injEq] at hp
            obtain ⟨hy, -⟩ := hp
            subst hy
            cases r0 with
            | stillOpen => simp [stepsThrough, hf] at hsteps
            | closed => simp [stepsThrough] at hsteps
            | raises => simp [stepsThrough] at hsteps

theorem solveLoop_none_iff :
    ∀ (iters : List Iter) (f : ℕ),
      solveLoop f iters = none ↔ ∃ fin, stepsThrough f iters = some fin := by
  intro iters
  induction iters with
  | nil =>
    intro f
    simp [solveLoop, stepsThrough]
  | cons x xs ih =>
    intro f
    cases x with
    | ok => simpa [solveLoop, stepsThrough] using ih f
    | solved => simp [solveLoop, stepsThrough]
    | exc r =>
      by_cases hf : f < 2
      · cases r with
        | stillOpen => simpa [solveLoop, stepsThrough, hf] using ih (f + 1)
        | closed => simp [solveLoop, stepsThrough, hf]
        | raises => simp [solveLoop, stepsThrough, hf]
      · cases r <;> simp [solveLoop, stepsThrough, hf]

/-- Claim C1: an exception escaping an iteration of the solve loop while the
challenge frame is still open is retried, at most two times: `solve` reports
failure (`False`) exactly when the run consists of normally completed
iterations interleaved with two retried still-open exceptions, followed by a
third exception - the failure counter having started at 0 and reached 2. -/
theorem solve_retry_ceiling :
    ∀ iters : List Iter,
      solve iters = some false ↔
        ∃ a b c r rest,
          iters = a ++ Iter.exc Recheck.stillOpen ::
            (b ++ Iter.exc Recheck.stillOpen :: (c ++ Iter.exc r :: rest)) ∧
          allOk a ∧ allOk b ∧ allOk c := by
  intro iters
  rw [solve, solveLoop_false_iff]
  constructor
  · rintro ⟨p, r, rest, fin, hp, hsteps, hfin⟩
    have hle : fin ≤ 2 := stepsThrough_le_two p 0 fin (by omega) hsteps
    have h2 : fin = 2 := by omega
    subst h2
    rcases (stepsThrough_zero_two p).mp hsteps with ⟨a, b, c, hdecomp, ha, hb, hc⟩
    refine ⟨a, b, c, r, rest, ?_, ha, hb, hc⟩
    rw [hp, hdecomp]
    simp [List.append_assoc]
  · rintro ⟨a, b, c, r, rest, hp, ha, hb, hc⟩
    refine ⟨a ++ Iter.exc Recheck.stillOpen :: (b ++ Iter.exc Recheck.stillOpen :: c),
      r, rest, 2, ?_, ?_, le_refl 2⟩
    · rw [hp]
      simp [List.append_assoc]
    · exact (stepsThrough_zero_two _).mpr ⟨a, b, c, rfl, ha, hb, hc⟩

/-- Witness for C1: a run of three consecutive exceptions with the challenge
still open at the first two re-probes returns `False` and decomposes as two
retries plus a final exception. -/
theorem solve_retry_ceiling_witness :
    ∃ a b c r rest,
      ([Iter.exc Recheck.stillOpen, Iter.exc Recheck.stillOpen,
        Iter.exc Recheck.stillOpen] : List Iter) =
        a ++ Iter.exc Recheck.stillOpen ::
          (b ++ Iter.exc Recheck.stillOpen :: (c ++ Iter.exc r :: rest)) ∧
      allOk a ∧ allOk b ∧ allOk c :=
  (solve_retry_ceiling _).mp (by decide)

/-- Claim C2: `solve` returns `True` exactly when an iteration reports the
challenge frame no longer displayed - `challenge_opened()` returning false,
or (within the retry budget) the handler's re-probe finding it closed or
raising because the frame disappeared; it returns `False` only when the
retry budget is exhausted (the failure counter reached 2 before the final
exception); and the only other behaviour is to keep looping through
iteration outcomes. -/
theorem solve_exit_conditions :
    ∀ iters : List Iter,
      (solve iters = some true ↔
        ∃ p e rest fin, iters = p ++ e :: rest ∧ stepsThrough 0 p = some fin ∧
          (e = Iter.solved ∨ (fin < 2 ∧
            (e = Iter.exc Recheck.closed ∨ e = Iter.exc Recheck.raises)))) ∧
      (solve iters = some false →
        ∃ p r rest, iters = p ++ Iter.exc r :: rest ∧ stepsThrough 0 p = some 2) ∧
      (solve iters = none ↔ ∃ fin, stepsThrough 0 iters = some fin) := by
  intro iters
  refine ⟨solveLoop_true_iff iters 0, ?_, solveLoop_none_iff iters 0⟩
  intro h
  rcases (solveLoop_false_iff iters 0).mp h with ⟨p, r, rest, fin, hp, hsteps, hfin⟩
  have hle : fin ≤ 2 := stepsThrough_le_two p 0 fin (by omega) hsteps
  have h2 : fin = 2 := by omega
  subst h2
  exact ⟨p, r, rest, hp, hsteps⟩

/-- Witness for C2: a run with one normal iteration followed by
`challenge_opened()` returning false exits with `True` through the
characterised exit. -/
theorem solve_exit_conditions_witness :
    ∃ p e rest fin,
      ([Iter.ok, Iter.solved] : List Iter) = p ++ e :: rest ∧
      stepsThrough 0 p = some fin ∧
      (e = Iter.solved ∨ (fin < 2 ∧
        (e = Iter.exc Recheck.closed ∨ e = Iter.exc Recheck.raises))) :=
  (solve_exit_conditions [Iter.ok, Iter.solved]).1.mp (by decide)

theorem pyCeilDiv_mul (b k : ℕ) (hk : 0 < k) : pyCeilDiv (b * k) k = b := by
  unfold pyCeilDiv
  have h1 : b * k + k - 1 = k * b + (k - 1) := by
    rw [Nat.mul_comm]
    omega
  rw [h1, Nat.mul_add_div hk, Nat.div_eq_of_lt (by omega)]
  omega

theorem flatMap_congr_mem {α β : Type} {l : List α} {f g : α → List β}
    (h : ∀ a ∈ l, f a = g a) : l.flatMap f = l.flatMap g := by
  induction l with
  | nil => rfl
  | cons x xs ih =>
    simp only [List.flatMap_cons]
    rw [h x (by simp), ih (fun a ha => h a (by simp [ha]))]

theorem length_flatMap_map {α β γ : Type} (l : List α) (l2 : List β) (g : α → β → γ) :
    (l.flatMap fun a => l2.map (g a)).length = l.length * l2.length := by
  induction l with
  | nil => simp
  | cons x xs ih => simp [ih, Nat.succ_mul, Nat.add_comm]

theorem div_eq_of_between (m i k : ℕ) (hk : 0 < k) (h1 : k * m ≤ i)
    (h2 : i < k * m + k) : i / k = m := by
  have hdm := Nat.div_add_mod i k
  have hmlt : i % k < k := Nat.mod_lt i hk
  rcases Nat.lt_trichotomy (i / k) m with h | h | h
  · have hmul : k * (i / k + 1) ≤ k * m := Nat.mul_le_mul_left k h
    rw [Nat.mul_succ] at hmul
    omega
  · exact h
  · have hmul : k * (m + 1) ≤ k * (i / k) := Nat.mul_le_mul_left k h
    rw [Nat.mul_succ] at hmul
    omega

theorem divide_blocks_square (b k : ℕ) (hb : 0 < b) (hk : 0 < k) :
    divide_blocks (b * k) (b * k) b =
      (List.range' 0 b k).flatMap (fun row =>
        (List.range' 0 b k).map (fun column => ((row, column), (k, k)))) := by
  have hstep : pyCeilDiv (b * k) b = k := by
    rw [Nat.mul_comm]
    exact pyCeilDiv_mul k b hb
  have hrange : pyRange (b * k) k = List.range' 0 b k := by
    unfold pyRange
    rw [pyCeilDiv_mul b k hk]
  simp only [divide_blocks, hstep, hrange]
  apply flatMap_congr_mem
  intro row hrow
  apply List.map_congr_left
  intro column hcol
  rcases List.mem_range'.mp hrow with ⟨i, hi, hrow2⟩
  rcases List.mem_range'.mp hcol with ⟨j, hj, hcol2⟩
  have h1 : row + k ≤ b * k := by
    have hle : k * (i + 1) ≤ k * b := Nat.mul_le_mul_left k hi
    have hms : k * (i + 1) = k * i + k := Nat.mul_succ k i
    have hcm : b * k = k * b := Nat.mul_comm b k
    omega
  have h2 : column + k ≤ b * k := by
    have hle : k * (j + 1) ≤ k * b := Nat.mul_le_mul_left k hj
    have hms : k * (j + 1) = k * j + k := Nat.mul_succ k j
    have hcm : b * k = k * b := Nat.mul_comm b k
    omega
  simp [Nat.min_eq_left h1, Nat.min_eq_left h2]

/-- Claim C4 (amended): on a square challenge image whose side is a positive
multiple of `blocks`, `OCR.divide_blocks` splits the image into exactly
`blocks ** 2` tiles, all of the same shape, and every pixel of the image lies
in exactly one tile.  (For other image shapes the tile count or the tile
shapes can differ - see the counterexample.) -/
theorem divide_blocks_partition :
    ∀ blocks k : ℕ, 0 < blocks → 0 < k →
      (divide_blocks (blocks * k) (blocks * k) blocks).length = blocks ^ 2 ∧
      (∀ t ∈ divide_blocks (blocks * k) (blocks * k) blocks, t.2 = (k, k)) ∧
      (∀ i j, i < blocks * k → j < blocks * k →
        ∃! t, t ∈ divide_blocks (blocks * k) (blocks * k) blocks ∧
          t.1.1 ≤ i ∧ i < t.1.1 + t.2.1 ∧ t.1.2 ≤ j ∧ j < t.1.2 + t.2.2) := by
  intro b k hb hk
  rw [divide_blocks_square b k hb hk]
  refine ⟨?_, ?_, ?_⟩
  · rw [length_flatMap_map]
    simp [pow_two]
  · intro t ht
    rcases List.mem_flatMap.mp ht with ⟨row, hrow, ht2⟩
    rcases List.mem_map.mp ht2 with ⟨column, hcol, ht3⟩
    rw [← ht3]
  · intro i j hi hj
    have hdivi : i / k < b := (Nat.div_lt_iff_lt_mul hk).mpr hi
    have hdivj : j / k < b := (Nat.div_lt_iff_lt_mul hk).mpr hj
    have hilo : k * (i / k) ≤ i := by
      calc k * (i / k) = i / k * k := Nat.mul_comm _ _
        _ ≤ i := Nat.div_mul_le_self i k
    have hihi : i < k * (i / k) + k := by
      have hdm := Nat.div_add_mod i k
      have hml : i % k < k := Nat.mod_lt i hk
      omega
    have hjlo : k * (j / k) ≤ j := by
      calc k * (j / k) = j / k * k := Nat.mul_comm _ _
        _ ≤ j := Nat.div_mul_le_self j k
    have hjhi : j < k * (j / k) + k := by
      have hdm := Nat.div_add_mod j k
      have hml : j % k < k := Nat.mod_lt j hk
      omega
    refine ⟨((k * (i / k), k * (j / k)), (k, k)), ⟨?_, hilo, hihi, hjlo, hjhi⟩, ?_⟩
    · apply List.mem_flatMap.mpr
      refine ⟨k * (i / k), ?_, ?_⟩
      · exact List.mem_range'.mpr ⟨i / k, hdivi, by omega⟩
      · apply List.mem_map.mpr
        exact ⟨k * (j / k), List.mem_range'.mpr ⟨j / k, hdivj, by omega⟩, rfl⟩
    · rintro t2 ⟨ht2mem, hr1, hr2, hc1, hc2⟩
      rcases List.mem_flatMap.mp ht2mem with ⟨row, hrow, ht3⟩
      rcases List.mem_map.mp ht3 with ⟨column, hcol, ht4⟩
      subst ht4
      rcases List.mem_range'.mp hrow with ⟨i2, hi2, hrow2⟩
      rcases List.mem_range'.mp hcol with ⟨j2, hj2, hcol2⟩
      simp only at hr1 hr2 hc1 hc2
      have hieq : i / k = i2 := div_eq_of_between i2 i k hk (by omega) (by omega)
      have hjeq : j / k = j2 := div_eq_of_between j2 j k hk (by omega) (by omega)
      simp [hrow2, hcol2, hieq, hjeq]

/-- Witness for C4: a square 300x300 image divided into 3x3 blocks gives 9
tiles of shape 100x100 partitioning the image. -/
theorem divide_blocks_partition_witness :
    (divide_blocks (3 * 100) (3 * 100) 3).length = 3 ^ 2 ∧
    (∀ t ∈ divide_blocks (3 * 100) (3 * 100) 3, t.2 = (100, 100)) ∧
    (∀ i j, i < 3 * 100 → j < 3 * 100 →
      ∃! t, t ∈ divide_blocks (3 * 100) (3 * 100) 3 ∧
        t.1.1 ≤ i ∧ i < t.1.1 + t.2.1 ∧ t.1.2 ≤ j ∧ j < t.1.2 + t.2.2) :=
  divide_blocks_partition 3 100 (by norm_num) (by norm_num)

/-- Counterexample to C4 as stated: a decoded 4x4 challenge image divided
with the default `blocks = 3` yields 4 tiles instead of `blocks ** 2 = 9`;
a non-square 3x6 image yields 12 tiles; and on a square 100x100 image the 9
tiles do not all have the same shape. -/
theorem divide_blocks_uneven :
    (divide_blocks 4 4 3).length ≠ 3 ^ 2 ∧
    (divide_blocks 3 6 3).length ≠ 3 ^ 2 ∧
    ¬ (∀ t1 ∈ divide_blocks 100 100 3, ∀ t2 ∈ divide_blocks 100 100 3,
        t1.2 = t2.2) := by
  refine ⟨by decide, by decide, ?_⟩
  intro h
  have h1 := h ((0, 0), (34, 34)) (by decide) ((0, 68), (34, 32)) (by decide)
  simp at h1

theorem intRange_mem {a b x : ℤ} : x ∈ intRange a b ↔ a ≤ x ∧ x < b := by
  unfold intRange
  simp only [List.mem_map, List.mem_range]
  constructor
  · rintro ⟨i, hi, hx⟩
    omega
  · intro h
    exact ⟨(x - a).toNat, by omega, by omega⟩

theorem indexTable_isSome {y x : ℤ} (hy1 : 1 ≤ y) (hy4 : y ≤ 4) (hx1 : 1 ≤ x)
    (hx4 : x ≤ 4) : (indexTable y x).isSome := by
  interval_cases y <;> interval_cases x <;> decide

theorem mapOpt_total {α β : Type} (f : α → Option β) (l : List α)
    (h : ∀ a ∈ l, (f a).isSome) : ∃ l2, mapOpt f l = some l2 := by
  induction l with
  | nil => exact ⟨[], rfl⟩
  | cons a rest ih =>
    rcases ih (fun a2 ha => h a2 (by simp [ha])) with ⟨l2, hl2⟩
    rcases Option.isSome_iff_exists.mp (h a (by simp)) with ⟨b, hb⟩
    exact ⟨b :: l2, by simp [mapOpt, hb, hl2]⟩

theorem mapOpt_none_of_mem {α β : Type} (f : α → Option β) (l : List α) (a : α)
    (ha : a ∈ l) (hf : f a = none) : mapOpt f l = none := by
  induction l with
  | nil => cases ha
  | cons x xs ih =>
    rcases List.mem_cons.mp ha with h | h
    · subst h
      simp [mapOpt, hf]
    · unfold mapOpt
      cases hfx : f x
      · rfl
      · simp [ih h]

theorem box_points_mem {H : ℚ} {cn : ℕ} {c : ℚ × ℚ × ℚ × ℚ} {p : ℤ × ℤ} :
    p ∈ box_points H cn c ↔
      (scaleCoord H cn c.1 ≤ p.1 ∧ p.1 < scaleCoord H cn c.2.2.1 + 1) ∧
      (scaleCoord H cn c.2.1 ≤ p.2 ∧ p.2 < scaleCoord H cn c.2.2.2 + 1) := by
  unfold box_points
  constructor
  · intro h
    rcases List.mem_flatMap.mp h with ⟨x, hx, hp2⟩
    rcases List.mem_map.mp hp2 with ⟨y, hy, hp3⟩
    rw [← hp3]
    exact ⟨intRange_mem.mp hx, intRange_mem.mp hy⟩
  · rintro ⟨hx, hy⟩
    apply List.mem_flatMap.mpr
    exact ⟨p.1, intRange_mem.mpr hx,
      List.mem_map.mpr ⟨p.2, intRange_mem.mpr hy, by simp⟩⟩

theorem scaleCoord_one_le (H c : ℚ) (hH : 0 < H) (hc : 0 < c) :
    1 ≤ scaleCoord H 4 c := by
  unfold scaleCoord
  have hpos : (0 : ℚ) < c / H * ((4 : ℕ) : ℚ) := by
    apply mul_pos (div_pos hc hH)
    norm_num
  have := Int.ceil_pos.mpr hpos
  omega

theorem scaleCoord_le_four (H c : ℚ) (hH : 0 < H) (hc : c ≤ H) :
    scaleCoord H 4 c ≤ 4 := by
  unfold scaleCoord
  have h1 : c / H ≤ 1 := (div_le_one hH).mpr hc
  have h2 : c / H * ((4 : ℕ) : ℚ) ≤ 1 * ((4 : ℕ) : ℚ) :=
    mul_le_mul_of_nonneg_right h1 (by norm_num)
  apply Int.ceil_le.mpr
  push_cast
  push_cast at h2
  linarith

theorem object_coordinates_bounded (H : ℚ) (_class : String)
    (dets : List Detection) (hH : 0 < H)
    (hbound : ∀ d ∈ dets, d.name = _class →
      0 ≤ d.xmin ∧ d.xmax ≤ H + 25 ∧ 0 ≤ d.ymin ∧ d.ymax ≤ H + 25) :
    ∃ bs, object_coordinates H _class dets 4 = some bs ∧ bs.length = 4 ^ 2 := by
  have hpts : ∀ p ∈ (challenge_points H _class dets 4).dedup,
      (indexTable (clampZero p.2) (clampZero p.1)).isSome := by
    intro p hp
    have hp2 : p ∈ challenge_points H _class dets 4 := List.mem_dedup.mp hp
    unfold challenge_points at hp2
    rcases List.mem_flatMap.mp hp2 with ⟨c, hc, hpbox⟩
    rcases List.mem_map.mp hc with ⟨r, hr, hcr⟩
    have hrf := List.mem_filter.mp hr
    have hname : r.name = _class := by simpa using hrf.2
    have hrd : r ∈ dets := by
      have h1 := hrf.1
      unfold find_object_dets at h1
      by_cases hcl : 0 < _class.length
      · simpa [hcl] using h1
      · simp [hcl] at h1
    rcases hbound r hrd hname with ⟨hx0, hxH, hy0, hyH⟩
    rw [← hcr] at hpbox
    rcases box_points_mem.mp hpbox with ⟨hx, hy⟩
    simp only at hx hy
    have hxlo : 1 ≤ p.1 :=
      le_trans (scaleCoord_one_le H (r.xmin + 25) hH (by linarith)) hx.1
    have hxhi : p.1 ≤ 4 := by
      have := scaleCoord_le_four H (r.xmax - 25) hH (by linarith)
      omega
    have hylo : 1 ≤ p.2 :=
      le_trans (scaleCoord_one_le H (r.ymin + 25) hH (by linarith)) hy.1
    have hyhi : p.2 ≤ 4 := by
      have := scaleCoord_le_four H (r.ymax - 25) hH (by linarith)
      omega
    have hcx : clampZero p.1 = p.1 := by
      simp [clampZero, show p.1 ≠ 0 by omega]
    have hcy : clampZero p.2 = p.2 := by
      simp [clampZero, show p.2 ≠ 0 by omega]
    rw [hcx, hcy]
    exact indexTable_isSome hylo hyhi hxlo hxhi
  rcases mapOpt_total _ _ hpts with ⟨vals, hvals⟩
  refine ⟨(List.range (4 ^ 2)).map
    (fun (number : ℕ) => decide (((number : ℤ) + 1) ∈ vals)), ?_, by rw [List.length_map, List.length_range]⟩
  unfold object_coordinates
  rw [hvals]

/-- Claim C6 (amended): the grid-cell lookup of `OCR.object_coordinates` is
total and the function returns exactly `chunk_number ** 2 = 16` booleans,
provided every target-class detection lies within the bounds of a square
image of height `H` (nonnegative minima, maxima at most `H + 25` after the
25-pixel inset).  Without that restriction the lookup can fail - see the
counterexample. -/
theorem object_coordinates_total :
    ∀ (H : ℚ) (_class : String) (dets : List Detection),
      0 < H →
      (∀ d ∈ dets, d.name = _class →
        0 ≤ d.xmin ∧ d.xmax ≤ H + 25 ∧ 0 ≤ d.ymin ∧ d.ymax ≤ H + 25) →
      ∃ bs, object_coordinates H _class dets 4 = some bs ∧ bs.length = 4 ^ 2 :=
  fun H _class dets hH hbound => object_coordinates_bounded H _class dets hH hbound

/-- Witness for C6: a full-image detection on a square 100-pixel image is
mapped to 16 booleans without a lookup failure. -/
theorem object_coordinates_total_witness :
    ∃ bs, object_coordinates 100 "car" [⟨"car", 0, 0, 100, 100⟩] 4 = some bs ∧
      bs.length = 4 ^ 2 :=
  object_coordinates_total 100 "car" [⟨"car", 0, 0, 100, 100⟩] (by norm_num)
    (by
      intro d hd hn
      rw [List.mem_singleton] at hd
      subst hd
      exact ⟨by norm_num, by norm_num, by norm_num, by norm_num⟩)

/-- Counterexample to C6 as stated: a target-class detection of a non-square
image (height 100, box reaching x = 200) produces the scaled x-coordinate 7,
outside the key set, so the dictionary lookup raises and
`object_coordinates` does not return a boolean list. -/
theorem object_coordinates_lookup_failure :
    object_coordinates 100 "crosswalk" [⟨"crosswalk", 0, 0, 200, 50⟩] 4 = none := by
  have e1 : scaleCoord 100 4 ((0 : ℚ) + 25) = 1 := by
    unfold scaleCoord
    rw [Int.ceil_eq_iff]
    norm_num
  have e2 : scaleCoord 100 4 ((200 : ℚ) - 25) = 7 := by
    unfold scaleCoord
    rw [Int.ceil_eq_iff]
    norm_num
  have e3 : scaleCoord 100 4 ((50 : ℚ) - 25) = 1 := by
    unfold scaleCoord
    rw [Int.ceil_eq_iff]
    norm_num
  have hmem : ((5 : ℤ), (1 : ℤ)) ∈
      challenge_points 100 "crosswalk" [⟨"crosswalk", 0, 0, 200, 50⟩] 4 := by
    unfold challenge_points
    apply List.mem_flatMap.mpr
    refine ⟨((0 : ℚ) + 25, (0 : ℚ) + 25, (200 : ℚ) - 25, (50 : ℚ) - 25), ?_, ?_⟩
    · apply List.mem_map.mpr
      refine ⟨⟨"crosswalk", 0, 0, 200, 50⟩, ?_, rfl⟩
      apply List.mem_filter.mpr
      refine ⟨?_, by simp⟩
      unfold find_object_dets
      rw [if_pos (by decide)]
      simp
    · apply box_points_mem.mpr
      simp only
      rw [e1, e2, e3]
      norm_num
  have hnone : mapOpt (fun p => indexTable (clampZero p.2) (clampZero p.1))
      (challenge_points 100 "crosswalk" [⟨"crosswalk", 0, 0, 200, 50⟩] 4).dedup =
        none :=
    mapOpt_none_of_mem _ _ ((5 : ℤ), (1 : ℤ)) (List.mem_dedup.mpr hmem) (by decide)
  unfold object_coordinates
  rw [hnone]

theorem select_blocks_clicks_spec :
    ∀ (result : List Bool) (perm : List ℕ),
      (∀ b ∈ perm, b < result.length) →
      ∃ cs, select_blocks_clicks result perm = some cs ∧
        ∀ b, b ∈ cs ↔ b ∈ perm ∧ result.get? b = some true := by
  intro result perm
  induction perm with
  | nil =>
    intro _
    exact ⟨[], rfl, by simp⟩
  | cons p ps ih =>
    intro h
    rcases ih (fun b hb => h b (by simp [hb])) with ⟨cs, hcs, hmem⟩
    have hp : p < result.length := h p (by simp)
    rcases hget : result.get? p with _ | v
    · exfalso
      rw [List.get?_eq_none] at hget
      omega
    · cases v
      · refine ⟨cs, ?_, ?_⟩
        · unfold select_blocks_clicks
          rw [hget]
          exact hcs
        · intro b
          rw [hmem b]
          constructor
          · rintro ⟨hbp, hbv⟩
            exact ⟨by simp [hbp], hbv⟩
          · rintro ⟨hbp, hbv⟩
            rcases List.mem_cons.mp hbp with rfl | hbp2
            · rw [hget] at hbv
              cases hbv
            · exact ⟨hbp2, hbv⟩
      · refine ⟨p :: cs, ?_, ?_⟩
        · unfold select_blocks_clicks
          rw [hget]
          show (select_blocks_clicks result ps).map (fun l => p :: l) =
            some (p :: cs)
          rw [hcs]
          rfl
        · intro b
          simp only [List.mem_cons]
          constructor
          · rintro (rfl | hbcs)
            · exact ⟨Or.inl rfl, hget⟩
            · rcases (hmem b).mp hbcs with ⟨h1, h2⟩
              exact ⟨Or.inr h1, h2⟩
          · rintro ⟨rfl | hbp, hbv⟩
            · exact Or.inl rfl
            · exact Or.inr ((hmem b).mpr ⟨hbp, hbv⟩)

/-- Claim C3 (amended): `Solver.select_blocks` reads the grid size from the
challenge table's class attribute; when it is 3 the per-tile pipeline
`check_blocks(find_object(divide_blocks()), _class)` produces the selection
list, and otherwise `object_coordinates()` maps the detections to the 4x4
grid.  Provided a target class is set and the challenge image is square with
side a positive multiple of 3 (3x3 case), respectively the detections lie
within the square image bounds (4x4 case), the selection list has exactly
one boolean per grid cell (9 or 16 entries) and a tile is clicked exactly
when its boolean is true.  (Without those provisos the selection list can
have a different length - see the counterexample.) -/
theorem select_blocks_grid_selection :
    ∀ (tc _class : String) (k : ℕ) (detect : Tile → List String) (H : ℚ)
      (dets : List Detection) (perm : List ℕ),
      0 < k → 0 < _class.length →
      (table_blocks tc = some 3 →
        ∃ res, select_blocks_result tc _class (3 * k) (3 * k) detect H dets =
            some res ∧
          res = check_blocks
            (find_object_tiles _class detect (divide_blocks (3 * k) (3 * k) 3))
            _class ∧
          res.length = 3 ^ 2 ∧
          (perm.Perm (List.range (3 ^ 2)) →
            ∃ cs, select_blocks_clicks res perm = some cs ∧
              ∀ b, b ∈ cs ↔ b < 3 ^ 2 ∧ res.get? b = some true)) ∧
      (∀ blocks, table_blocks tc = some blocks → blocks ≠ 3 → 0 < H →
        (∀ d ∈ dets, d.name = _class →
          0 ≤ d.xmin ∧ d.xmax ≤ H + 25 ∧ 0 ≤ d.ymin ∧ d.ymax ≤ H + 25) →
        ∃ res, select_blocks_result tc _class (3 * k) (3 * k) detect H dets =
            some res ∧
          object_coordinates H _class dets 4 = some res ∧
          res.length = 4 ^ 2 ∧
          (perm.Perm (List.range (4 ^ 2)) →
            ∃ cs, select_blocks_clicks res perm = some cs ∧
              ∀ b, b ∈ cs ↔ b < 4 ^ 2 ∧ res.get? b = some true)) := by
  intro tc cls k detect H dets perm hk hcls
  constructor
  · intro h3
    have hlen : (check_blocks
        (find_object_tiles cls detect (divide_blocks (3 * k) (3 * k) 3))
        cls).length = 3 ^ 2 := by
      unfold check_blocks find_object_tiles
      rw [if_pos hcls, List.length_map, List.length_map,
        divide_blocks_square 3 k (by norm_num) hk, length_flatMap_map]
      simp
    refine ⟨_, ?_, rfl, hlen, ?_⟩
    · unfold select_blocks_result
      rw [h3]
      simp
    · intro hperm
      have hbound : ∀ b ∈ perm, b < (check_blocks
          (find_object_tiles cls detect (divide_blocks (3 * k) (3 * k) 3))
          cls).length := by
        intro b hb
        rw [hlen]
        have hmem := hperm.mem_iff.mp hb
        simpa using hmem
      rcases select_blocks_clicks_spec _ perm hbound with ⟨cs, hcs, hmem⟩
      refine ⟨cs, hcs, ?_⟩
      intro b
      rw [hmem b, hperm.mem_iff]
      simp [List.mem_range]
  · intro blocks hb hb3 hH hbound
    rcases object_coordinates_bounded H cls dets hH hbound with ⟨bs, hbs, hblen⟩
    refine ⟨bs, ?_, hbs, hblen, ?_⟩
    · unfold select_blocks_result
      rw [hb]
      show (if blocks = 3 then
          some (check_blocks
            (find_object_tiles cls detect (divide_blocks (3 * k) (3 * k) 3)) cls)
        else object_coordinates H cls dets 4) = some bs
      rw [if_neg hb3]
      exact hbs
    · intro hperm
      have hbound2 : ∀ b2 ∈ perm, b2 < bs.length := by
        intro b2 hb2
        rw [hblen]
        simpa using hperm.mem_iff.mp hb2
      rcases select_blocks_clicks_spec bs perm hbound2 with ⟨cs, hcs, hmem⟩
      refine ⟨cs, hcs, ?_⟩
      intro b2
      rw [hmem b2, hperm.mem_iff]
      simp [List.mem_range]

/-- Witness for C3: a 3x3 challenge (class attribute
`rc-imageselect-table-33`) on a square 3-pixel image with a set class
produces 9 booleans and a click list. -/
theorem select_blocks_grid_selection_witness :
    ∃ res, select_blocks_result "rc-imageselect-table-33" "car" (3 * 1) (3 * 1)
        (fun _ => ["car"]) 1 [] = some res ∧
      res = check_blocks (find_object_tiles "car" (fun _ => ["car"])
        (divide_blocks (3 * 1) (3 * 1) 3)) "car" ∧
      res.length = 3 ^ 2 ∧
      ((List.range (3 ^ 2)).Perm (List.range (3 ^ 2)) →
        ∃ cs, select_blocks_clicks res (List.range (3 ^ 2)) = some cs ∧
          ∀ b, b ∈ cs ↔ b < 3 ^ 2 ∧ res.get? b = some true) :=
  (select_blocks_grid_selection "rc-imageselect-table-33" "car" 1
    (fun _ => ["car"]) 1 [] (List.range (3 ^ 2)) (by norm_num) (by decide)).1
    (by decide)

/-- Counterexample to C3 as stated: on a square 4-pixel 3x3 challenge image
the selection list has 4 entries (neither 9 nor 16) and the click loop runs
out of range, and with no class set it has 0 entries even on a 300-pixel
image. -/
theorem select_blocks_missing_cells :
    (∃ res, select_blocks_result "rc-imageselect-table-33" "car" 4 4
        (fun _ => []) 100 [] = some res ∧ res.length = 4 ∧
        select_blocks_clicks res (List.range (3 ^ 2)) = none) ∧
    (∃ res, select_blocks_result "rc-imageselect-table-33" "" 300 300
        (fun _ => []) 100 [] = some res ∧ res.length = 0) := by
  constructor
  · exact ⟨[false, false, false, false], by decide, rfl, by decide⟩
  · exact ⟨[], by decide, rfl⟩

theorem select_blocks_trace_no_poll :
    ∀ (result : List Bool) (perm : List ℕ) (dyn : List (ℕ × Bool)),
      ∀ e ∈ select_blocks_trace result perm dyn, isPollEv e = false := by
  intro result perm dyn e he
  unfold select_blocks_trace at he
  rcases List.mem_append.mp he with h | h
  · rcases List.mem_append.mp h with h2 | h2
    · simp only [List.mem_cons, List.not_mem_nil, or_false] at h2
      rcases h2 with rfl | rfl | rfl <;> rfl
    · rcases List.mem_map.mp h2 with ⟨m, -, rfl⟩
      rfl
  · rcases List.mem_flatMap.mp h with ⟨d, -, h2⟩
    rcases List.mem_append.mp h2 with h3 | h3
    · simp only [List.mem_cons, List.not_mem_nil, or_false] at h3
      rcases h3 with rfl | rfl <;> rfl
    · by_cases hd : d.2 <;> simp [hd] at h3
      subst h3
      rfl

theorem click_after_classify {t rest : List Ev}
    (ht : t = Ev.fetchImage :: Ev.classify :: Ev.mapResults :: rest) :
    ∀ i n (hi : i < t.length), t.get ⟨i, hi⟩ = Ev.clickTile n →
      ∃ j, ∃ hj : j < t.length, j < i ∧ t.get ⟨j, hj⟩ = Ev.classify := by
  subst ht
  intro i n hi hget
  cases i with
  | zero => simp at hget
  | succ i2 =>
    cases i2 with
    | zero => simp at hget
    | succ i3 =>
      refine ⟨1, ?_, ?_, ?_⟩
      · simp only [List.length_cons]
        omega
      · omega
      · rfl

/-- Claim C10: in an iteration of the solve loop the challenge image is
fetched, the model classifies it, the detections are mapped to tiles, the
selected tiles are clicked, and only then is completion polled (confirm and
error-check, or reload); no tile click precedes the classification of that
iteration's image, and no poll precedes any tile click. -/
theorem solve_iteration_order :
    ∀ (result : List Bool) (perm : List ℕ) (dyn : List (ℕ × Bool))
      (_class : String) (errorShown : Bool),
      (∃ rest, solve_iteration_trace result perm dyn _class errorShown =
        Ev.fetchImage :: Ev.classify :: Ev.mapResults :: rest) ∧
      (∃ body polling,
        solve_iteration_trace result perm dyn _class errorShown =
          body ++ polling ∧
        (∀ e ∈ body, isPollEv e = false) ∧
        (∀ e ∈ polling, isClickEv e = false) ∧ polling ≠ []) ∧
      (∀ i n
        (hi : i < (solve_iteration_trace result perm dyn _class errorShown).length),
        (solve_iteration_trace result perm dyn _class errorShown).get ⟨i, hi⟩ =
          Ev.clickTile n →
        ∃ j, ∃ hj :
          j < (solve_iteration_trace result perm dyn _class errorShown).length,
          j < i ∧
          (solve_iteration_trace result perm dyn _class errorShown).get ⟨j, hj⟩ =
            Ev.classify) := by
  intro result perm dyn cls err
  have hshape : ∃ rest, solve_iteration_trace result perm dyn cls err =
      Ev.fetchImage :: Ev.classify :: Ev.mapResults :: rest := by
    unfold solve_iteration_trace select_blocks_trace
    rw [List.append_assoc, List.append_assoc]
    exact ⟨_, rfl⟩
  refine ⟨hshape, ?_, ?_⟩
  · refine ⟨select_blocks_trace result perm dyn, _, rfl,
      select_blocks_trace_no_poll result perm dyn, ?_, ?_⟩
    · intro e he
      by_cases hcl : cls ≠ ""
      · rw [if_pos hcl] at he
        by_cases herr : err
        · simp [herr] at he
          rcases he with rfl | rfl | rfl <;> rfl
        · simp [herr] at he
          rcases he with rfl | rfl <;> rfl
      · rw [if_neg hcl] at he
        simp at he
        subst he
        rfl
    · by_cases hcl : cls ≠ "" <;> simp [hcl]
  · rcases hshape with ⟨rest, hr⟩
    exact click_after_classify hr

/-- Witness for C10: in a concrete iteration trace with one selected tile,
the click at position 3 is preceded by the classification at position 1. -/
theorem solve_iteration_order_witness :
    ∃ j, ∃ hj : j < (solve_iteration_trace [true] [0] [] "car" false).length,
      j < 3 ∧ (solve_iteration_trace [true] [0] [] "car" false).get ⟨j, hj⟩ =
        Ev.classify :=
  (solve_iteration_order [true] [0] [] "car" false).2.2 3 0 (by decide) (by decide)

end Recaptcha
